import Mathlib

/-!
Shallow embedding of `pymantic/primitives.py` (Python 2): the term model,
the auto-vivifying nested `Index` (a `defaultdict` of `defaultdict`s),
`Graph` with its primary triple set and SPO/POS/OSP index trees, and
`Dataset` mapping graph-name terms to `Graph`s.

Python dicts are embedded as association lists with unique keys
(`dGet?`/`dSet`/`dErase` mirror `d[k]`, `d[k] = v`, `del d[k]`); Python
sets as duplicate-free lists; raised exceptions (`KeyError` from
`set.remove`/`del d[k]`, `ValueError` from `Dataset.add_graph`) as
`Except` results that carry the state at the moment of the raise.
-/

namespace Pymantic

/-- RDF term: `NamedNode` wraps a unicode string, `BlankNode` has per-instance
identity (embedded as a numeric id), `Literal` is (value, language, datatype).
A `Literal`'s datatype is a `NamedNode`, embedded here as its string. -/
inductive Term where
  | named : String → Term
  | blank : Nat → Term
  | literal : String → Option String → Option String → Term
deriving DecidableEq

/-- Python truthiness of a term: a `NamedNode` is a unicode string, falsy
exactly when empty; a `BlankNode` is a plain object, always truthy; a
`Literal` is a 3-tuple, always truthy. -/
def Term.truthy : Term → Bool
  | .named s => s != ""
  | .blank _ => true
  | .literal _ _ _ => true

/-- Triple(subject, predicate, object): a value-equality tuple. -/
structure Triple where
  subject : Term
  predicate : Term
  object : Term
deriving DecidableEq

/-- Quad(subject, predicate, object, graph). -/
structure Quad where
  subject : Term
  predicate : Term
  object : Term
  graph : Term
deriving DecidableEq

/-- Embeds `q_as_t`: drop the graph name. -/
def q_as_t (q : Quad) : Triple :=
  ⟨q.subject, q.predicate, q.object⟩

/-- Embeds `t_as_q`: widen a triple with a graph name. -/
def t_as_q (graph_name : Term) (t : Triple) : Quad :=
  ⟨t.subject, t.predicate, t.object, graph_name⟩

/-! Python dict embedded as an association list with unique keys. -/

/-- Dict read `d.get(k)`: first binding of `k`, if any. -/
def dGet? {α : Type} : List (Term × α) → Term → Option α
  | [], _ => none
  | (k, v) :: rest, k' => if k = k' then some v else dGet? rest k'

/-- Read of a `defaultdict` level whose default is an empty collection:
`d[k]` returns the stored collection, or an empty one when `k` is absent.
(The auto-created empty level is written back by the callers that need it:
see `idx3Set`, `idx3Del`, `viv1`, `viv2`.) -/
def dGetD {α : Type} (l : List (Term × List α)) (k : Term) : List α :=
  (dGet? l k).getD []

/-- Dict write `d[k] = v`: replace the binding of `k`, or append a new one. -/
def dSet {α : Type} : List (Term × α) → Term → α → List (Term × α)
  | [], k, v => [(k, v)]
  | (k', v') :: rest, k, v =>
      if k' = k then (k, v) :: rest else (k', v') :: dSet rest k v

/-- Dict delete `del d[k]` given `k` is present: drop the binding of `k`. -/
def dErase {α : Type} : List (Term × α) → Term → List (Term × α)
  | [], _ => []
  | (k', v') :: rest, k => if k' = k then rest else (k', v') :: dErase rest k

/-- Keys of a dict level are pairwise distinct (true of every Python dict). -/
def dKeysNodup {α : Type} (l : List (Term × α)) : Prop :=
  (l.map Prod.fst).Nodup

/-! The three-level `Index` (`defaultdict(Index)` nesting, terminal level
storing a `Triple`), together with the operations the `Graph` methods
perform on it. -/

/-- Terminal index level: object key to stored `Triple` (for SPO; the other
two orderings use the same shape with permuted keys). -/
abbrev Idx1 := List (Term × Triple)

/-- Middle index level. -/
abbrev Idx2 := List (Term × Idx1)

/-- Top index level: one of `_spo`, `_pos`, `_osp`. -/
abbrev Idx3 := List (Term × Idx2)

/-- Embeds `m[a][b][c] = t`: the two `defaultdict` reads auto-create empty
levels for absent keys, then the terminal assignment stores `t`. -/
def idx3Set (m : Idx3) (a b c : Term) (t : Triple) : Idx3 :=
  let m2 := dGetD m a
  let m1 := dGetD m2 b
  dSet m a (dSet m2 b (dSet m1 c t))

/-- Embeds `del m[a][b][c]`: the two `defaultdict` reads auto-create empty
levels for absent keys (and those empty levels persist), then the terminal
delete raises `KeyError` when `c` is absent. The error value carries the
map as Python leaves it (intermediate levels vivified, nothing deleted). -/
def idx3Del (m : Idx3) (a b c : Term) : Except Idx3 Idx3 :=
  let m2 := dGetD m a
  let m1 := dGetD m2 b
  if (dGet? m1 c).isSome then
    .ok (dSet m a (dSet m2 b (dErase m1 c)))
  else
    .error (dSet m a (dSet m2 b m1))

/-- The triple reachable by descending an index tree at the key path
`[a][b][c]`, if any (the §3 "reachable through the index tree" notion). -/
def idx3Find (m : Idx3) (a b c : Term) : Option Triple :=
  dGet? (dGetD (dGetD m a) b) c

/-- Structural state left by a single `defaultdict` read `m[a]` performed by
`Graph.match` while it enumerates: an absent top-level key springs into
existence holding an empty level. -/
def viv1 (m : Idx3) (a : Term) : Idx3 :=
  dSet m a (dGetD m a)

/-- Structural state left by the reads `m[a][b]` performed by `Graph.match`:
absent keys on the two-level path spring into existence. -/
def viv2 (m : Idx3) (a b : Term) : Idx3 :=
  let m2 := dGetD m a
  dSet m a (dSet m2 b (dGetD m2 b))

/-- Every level of an index tree has pairwise-distinct keys, as every Python
dict does by construction. -/
def idx3WF (m : Idx3) : Prop :=
  dKeysNodup m ∧ ∀ pr ∈ m, dKeysNodup pr.2 ∧ ∀ pr2 ∈ pr.2, dKeysNodup pr2.2



/-! The `Graph` class: a primary set of triples plus the three index trees.
The `_actions` callback set takes no part in any claim and is omitted.
Python exceptions are embedded as `Except` values carrying the state at the
raise; `PyErr.keyError` is the `KeyError` of `set.remove`/`del d[k]` (the
spec's NotFound condition) and `PyErr.valueError` the `ValueError` of
`Dataset.add_graph` (the spec's InvalidArgument condition). -/

inductive PyErr where
  | keyError
  | valueError
deriving DecidableEq

structure Graph where
  uri : Term
  triples : List Triple
  spo : Idx3
  pos : Idx3
  osp : Idx3
deriving DecidableEq

/-- Embeds `Graph.__init__(graph_uri=None)`: a non-`NamedNode` argument is
coerced with `NamedNode(graph_uri)`; in Python 2, `NamedNode(None)` is
`unicode(None)`, the string `"None"`. -/
def Graph.init (graph_uri : Option String) : Graph :=
  { uri := Term.named (graph_uri.getD "None")
    triples := []
    spo := []
    pos := []
    osp := [] }

/-- Embeds `Graph.add`: insert into the primary set (a no-op when already
present) and store the triple at its path in each of the three trees. -/
def Graph.add (g : Graph) (t : Triple) : Graph :=
  { g with
    triples := g.triples.insert t
    spo := idx3Set g.spo t.subject t.predicate t.object t
    pos := idx3Set g.pos t.predicate t.object t.subject t
    osp := idx3Set g.osp t.object t.subject t.predicate t }

/-- Embeds `Graph.remove`: `self._triples.remove(triple)` raises `KeyError`
first when the triple is absent (the remaining structures untouched); then
the three `del` statements run in order, each able to raise `KeyError`
(impossible in any reachable state: see `inv_reachable`), leaving the
structures updated so far. -/
def Graph.remove (g : Graph) (t : Triple) : Except (PyErr × Graph) Graph :=
  if t ∈ g.triples then
    let g1 : Graph := { g with triples := g.triples.erase t }
    match idx3Del g1.spo t.subject t.predicate t.object with
    | .error spoV => .error (.keyError, { g1 with spo := spoV })
    | .ok spo1 =>
      let g2 : Graph := { g1 with spo := spo1 }
      match idx3Del g2.pos t.predicate t.object t.subject with
      | .error posV => .error (.keyError, { g2 with pos := posV })
      | .ok pos1 =>
        let g3 : Graph := { g2 with pos := pos1 }
        match idx3Del g3.osp t.object t.subject t.predicate with
        | .error ospV => .error (.keyError, { g3 with osp := ospV })
        | .ok osp1 => .ok { g3 with osp := osp1 }
  else .error (.keyError, g)

/-- The graph state after a `remove` call, whether it returned or raised. -/
def Graph.removeState (g : Graph) (t : Triple) : Graph :=
  match g.remove t with
  | .ok g' => g'
  | .error pr => pr.2

/-- Truthiness of an optional argument defaulting to `None`: `None` is
falsy, a term argument has its own truthiness. -/
def truthyO : Option Term → Bool
  | some t => t.truthy
  | none => false

/-- The term held by a truthy optional argument (the default is never
reached: `truthyO` rules out `none`, and `Term.named ""` is itself falsy). -/
def tval : Option Term → Term
  | some t => t
  | none => Term.named ""

/-- Enumeration `m[a][b].itervalues()` of one terminal index level. -/
def idxVals2 (m : Idx3) (a b : Term) : List Triple :=
  (dGetD (dGetD m a) b).map Prod.snd

/-- Enumeration `for k in m[a]: m[a][k].itervalues()` over a two-level
suffix: iterate the keys of `m[a]`, looking each up again as the source
does. -/
def idxVals1 (m : Idx3) (a : Term) : List Triple :=
  (dGetD m a).flatMap (fun pr => (dGetD (dGetD m a) pr.1).map Prod.snd)

/-- Embeds `Graph.match` (the generator at primitives.py lines 329-375),
returning the yielded triples in order. Each argument is tested with
`if subject:` etc., i.e. by truthiness. The `defaultdict` reads the
generator performs can also auto-create empty branches; those store no
triple and do not change the yielded values, and that structural effect is
modelled separately by `Graph.matchState`. -/
def Graph.matchT (g : Graph) (so po oo : Option Term) : List Triple :=
  if truthyO so then
    if truthyO po then
      if truthyO oo then
        if (⟨tval so, tval po, tval oo⟩ : Triple) ∈ g.triples then
          [⟨tval so, tval po, tval oo⟩]
        else []
      else idxVals2 g.spo (tval so) (tval po)
    else
      if truthyO oo then idxVals2 g.osp (tval oo) (tval so)
      else idxVals1 g.spo (tval so)
  else
    if truthyO po then
      if truthyO oo then idxVals2 g.pos (tval po) (tval oo)
      else idxVals1 g.pos (tval po)
    else
      if truthyO oo then idxVals1 g.osp (tval oo)
      else g.triples

/-- The structural state a fully consumed `Graph.match` generator leaves
behind: the `defaultdict` reads of its dispatch case may have auto-created
empty index branches. The fully-bound case only tests set membership and
the fully-unbound case only iterates the set; neither touches an index. -/
def Graph.matchState (g : Graph) (so po oo : Option Term) : Graph :=
  if truthyO so then
    if truthyO po then
      if truthyO oo then g
      else { g with spo := viv2 g.spo (tval so) (tval po) }
    else
      if truthyO oo then { g with osp := viv2 g.osp (tval oo) (tval so) }
      else { g with spo := viv1 g.spo (tval so) }
  else
    if truthyO po then
      if truthyO oo then { g with pos := viv2 g.pos (tval po) (tval oo) }
      else { g with pos := viv1 g.pos (tval po) }
    else
      if truthyO oo then { g with osp := viv1 g.osp (tval oo) }
      else g

/-- Embeds `Graph.addAll`: repeated `add`. -/
def Graph.addAll (g : Graph) (ts : List Triple) : Graph :=
  ts.foldl Graph.add g

/-- Embeds `Graph.merge`: build a fresh unnamed `Graph`, add every triple of
the argument, then every triple of `self`; neither input is touched. -/
def Graph.merge (g other : Graph) : Graph :=
  ((Graph.init none).addAll other.triples).addAll g.triples

/-- Field test following claim C1's words: a bound (supplied, non-`None`)
argument must equal the field by term equality. -/
def suppliedFieldMatch (arg : Option Term) (x : Term) : Bool :=
  match arg with
  | some v => decide (x = v)
  | none => true

/-- Brute-force filter of all of the graph's triples by equality on the
supplied fields: the reference semantics claim C1 states for `match`. -/
def bruteMatchSupplied (g : Graph) (so po oo : Option Term) : List Triple :=
  g.triples.filter (fun t => suppliedFieldMatch so t.subject &&
    suppliedFieldMatch po t.predicate && suppliedFieldMatch oo t.object)

/-- Field test under the code's actual binding rule: an argument is bound
only when truthy; a falsy argument (`None`, or a term such as
`NamedNode("")`) matches every field value. -/
def truthyFieldMatch (arg : Option Term) (x : Term) : Bool :=
  match arg with
  | some v => if v.truthy then decide (x = v) else true
  | none => true

/-- Brute-force filter of all of the graph's triples by equality on the
truthy-bound fields: the corrected reference semantics for `match`. -/
def bruteMatchTruthy (g : Graph) (so po oo : Option Term) : List Triple :=
  g.triples.filter (fun t => truthyFieldMatch so t.subject &&
    truthyFieldMatch po t.predicate && truthyFieldMatch oo t.object)

/-! The `Dataset` class: `self._graphs = defaultdict(Graph)` mapping
graph-name terms to `Graph`s. -/

structure Dataset where
  graphs : List (Term × Graph)
deriving DecidableEq

/-- Embeds `Dataset.__init__`: an empty `defaultdict(Graph)`. -/
def Dataset.init : Dataset :=
  ⟨[]⟩

/-- Embeds a read `self._graphs[name]` of the `defaultdict(Graph)`: an
absent name auto-creates `Graph()` — an empty graph whose `_uri` is
`NamedNode(None)`, i.e. the string `"None"` — and registers it under
`name`. -/
def Dataset.vivify (d : Dataset) (name : Term) : Graph × Dataset :=
  match dGet? d.graphs name with
  | some g => (g, d)
  | none => (Graph.init none, ⟨d.graphs ++ [(name, Graph.init none)]⟩)

/-- Embeds `Dataset.add`: `self._graphs[quad.graph]._uri = quad.graph`,
then `self._graphs[quad.graph].add(q_as_t(quad))`, both reads
auto-creating the graph on first reference. -/
def Dataset.add (d : Dataset) (q : Quad) : Dataset :=
  let gd := d.vivify q.graph
  let g1 : Graph := { gd.1 with uri := q.graph }
  ⟨dSet gd.2.graphs q.graph (g1.add (q_as_t q))⟩

/-- Embeds `Dataset.remove`: the `defaultdict` read auto-creates an empty
graph for an unknown name; the narrowed triple is then removed from that
graph, propagating `Graph.remove`'s `KeyError` when absent. The error
value carries the dataset as the raise leaves it: the vivified entry
persists. -/
def Dataset.remove (d : Dataset) (q : Quad) :
    Except (PyErr × Dataset) Dataset :=
  let gd := d.vivify q.graph
  match gd.1.remove (q_as_t q) with
  | .ok g1 => .ok ⟨dSet gd.2.graphs q.graph g1⟩
  | .error pr => .error (pr.1, ⟨dSet gd.2.graphs q.graph pr.2⟩)

/-- The dataset state after a `remove` call, whether it returned or
raised. -/
def Dataset.removeState (d : Dataset) (q : Quad) : Dataset :=
  match d.remove q with
  | .ok d' => d'
  | .error pr => pr.2

/-- Embeds `Dataset.add_graph`: `name = named or graph.uri` (Python `or`
picks `named` exactly when truthy), then `if name:` accepts any truthy
name, sets `graph._uri = name` and registers the graph under `graph.uri`;
a falsy name raises `ValueError("Graph must be named")`. -/
def Dataset.add_graph (d : Dataset) (g : Graph) (named : Option Term) :
    Except (PyErr × Dataset) Dataset :=
  let name : Term :=
    match named with
    | some n => if n.truthy then n else g.uri
    | none => g.uri
  if name.truthy then
    let g1 : Graph := { g with uri := name }
    .ok ⟨dSet d.graphs g1.uri g1⟩
  else
    .error (.valueError, d)

/-- The dataset state after an `add_graph` call, whether it returned or
raised. -/
def Dataset.addGraphState (d : Dataset) (g : Graph) (named : Option Term) :
    Dataset :=
  match d.add_graph g named with
  | .ok d' => d'
  | .error pr => pr.2

/-- Embeds `Dataset.match` together with the structural state consuming
the generator leaves behind: with a truthy `graph` argument the read
`self._graphs[graph]` can auto-create an empty graph under that name;
otherwise every contained graph is matched and each triple widened with
its mapping key (`iteritems`). Index branches vivified inside member
graphs while their own `match` generators run touch neither the mapping
keys nor any graph's name and are not tracked at this layer. -/
def Dataset.matchQ (d : Dataset) (so po oo go : Option Term) :
    List Quad × Dataset :=
  if truthyO go then
    let gd := d.vivify (tval go)
    ((gd.1.matchT so po oo).map (t_as_q (tval go)), gd.2)
  else
    (d.graphs.flatMap (fun pr => (pr.2.matchT so po oo).map (t_as_q pr.1)), d)

/-- Embeds `Dataset.addAll`: repeated `add`. -/
def Dataset.addAll (d : Dataset) (qs : List Quad) : Dataset :=
  qs.foldl Dataset.add d

/-! Concrete fixtures for the closed evaluations below. -/

def sA : Term := Term.named "http://ex/s"

def pA : Term := Term.named "http://ex/p"

def oA : Term := Term.named "http://ex/o"

def oB : Term := Term.named "http://ex/o2"

def tA : Triple := ⟨sA, pA, oA⟩

def tB : Triple := ⟨sA, pA, oB⟩

def gnA : Term := Term.named "http://ex/g"

def qA : Quad := ⟨sA, pA, oA, gnA⟩

/-! Reference-faithful model of `Dataset` for the naming invariant: a
Python dict holds references to shared mutable `Graph` objects, and
`add_graph`'s `graph._uri = name` mutates the referenced object in place —
visible through every key of every mapping that references it. The
value-semantics `Dataset` above is faithful for the per-call behavior of
`add`, `remove` and `add_graph`, but cannot express a graph registered
under two keys, so the naming invariant is settled on this model: `heap`
maps object ids to current graph states, `graphs` is the dict from
graph-name keys to object references. -/

structure DatasetH where
  heap : List Graph
  graphs : List (Term × Nat)
deriving DecidableEq

/-- Embeds `Dataset.__init__`: empty mapping, no objects yet. -/
def DatasetH.init : DatasetH :=
  ⟨[], []⟩

/-- The caller constructing a `Graph(...)` object (or bringing any
externally built graph into scope) before passing it to `add_graph`: a new
heap object, not yet in the mapping. -/
def DatasetH.allocH (d : DatasetH) (g0 : Graph) : DatasetH :=
  ⟨d.heap ++ [g0], d.graphs⟩

/-- Embeds a read `self._graphs[name]` of the `defaultdict(Graph)` under
reference semantics: an absent name allocates a fresh `Graph()` — uri
`NamedNode(None)`, i.e. `"None"` — and registers a reference to it. -/
def DatasetH.vivifyH (d : DatasetH) (name : Term) : Nat × DatasetH :=
  match dGet? d.graphs name with
  | some r => (r, d)
  | none =>
    (d.heap.length, ⟨d.heap ++ [Graph.init none],
      d.graphs ++ [(name, d.heap.length)]⟩)

/-- Embeds `Dataset.add` under reference semantics:
`self._graphs[quad.graph]._uri = quad.graph` then
`self._graphs[quad.graph].add(q_as_t(quad))`, both mutating the one
referenced object in place. -/
def DatasetH.addH (d : DatasetH) (q : Quad) : DatasetH :=
  let rd := d.vivifyH q.graph
  let g := rd.2.heap.getD rd.1 (Graph.init none)
  ⟨rd.2.heap.set rd.1 ({ g with uri := q.graph }.add (q_as_t q)),
    rd.2.graphs⟩

/-- State after `Dataset.remove` under reference semantics, whether it
returned or raised: the referenced graph object is left in its
`Graph.removeState`, the mapping gains at most the vivified entry. -/
def DatasetH.removeStateH (d : DatasetH) (q : Quad) : DatasetH :=
  let rd := d.vivifyH q.graph
  let g := rd.2.heap.getD rd.1 (Graph.init none)
  ⟨rd.2.heap.set rd.1 (g.removeState (q_as_t q)), rd.2.graphs⟩

/-- The source's `name = named or graph.uri`: Python `or` picks `named`
exactly when truthy. -/
def pyOrName (named : Option Term) (u : Term) : Term :=
  match named with
  | some n => if n.truthy then n else u
  | none => u

/-- State after `Dataset.add_graph` under reference semantics, whether it
returned or raised: for a truthy resolved name, `graph._uri = name`
mutates the shared object `r` in place — changing what every existing
entry referencing `r` contains — and `self._graphs[graph.uri] = graph`
registers `r` under the new name; a falsy name raises `ValueError`
leaving everything unchanged. -/
def DatasetH.addGraphStateH (d : DatasetH) (r : Nat) (named : Option Term) :
    DatasetH :=
  let g := d.heap.getD r (Graph.init none)
  let name := pyOrName named g.uri
  if name.truthy then
    ⟨d.heap.set r { g with uri := name }, dSet d.graphs name r⟩
  else
    d

/-- Embeds `Dataset.addAll`: repeated `add`. -/
def DatasetH.addAllH (d : DatasetH) (qs : List Quad) : DatasetH :=
  qs.foldl DatasetH.addH d

/-- Dataset states reachable through the public interface, under reference
semantics: `allocH` lets the caller construct graph objects; `addH`,
`removeStateH` (either outcome) and `addGraphStateH` (either outcome) are
the mutating dataset calls, `addGraphStep` restricted to references to
objects that exist, as every Python reference is; `matchViv` is the
`defaultdict` lookup a consumed `match` with a bound graph performs; and
`graphStep` covers every mutation applied to a held graph object through
`Graph`'s own public interface (`add`, `remove`, consuming `match`, and
the `addAll`/`merge`/`removeMatches` compositions) — none of which assigns
`_uri` (only `Dataset.add` and `Dataset.add_graph` do), so any
uri-preserving object update soundly covers them. `addAllH` is a sequence
of `addH` (see `dreachableH_addAll`); `__contains__`, `__len__` and
`__iter__` do not mutate. -/
inductive DReachableH : DatasetH → Prop where
  | init : DReachableH DatasetH.init
  | alloc {d : DatasetH} (g0 : Graph) : DReachableH d →
      DReachableH (d.allocH g0)
  | addQ {d : DatasetH} (q : Quad) : DReachableH d →
      DReachableH (d.addH q)
  | removeStep {d : DatasetH} (q : Quad) : DReachableH d →
      DReachableH (d.removeStateH q)
  | addGraphStep {d : DatasetH} (r : Nat) (n : Option Term)
      (hr : r < d.heap.length) : DReachableH d →
      DReachableH (d.addGraphStateH r n)
  | matchViv {d : DatasetH} (k : Term) : DReachableH d →
      DReachableH (d.vivifyH k).2
  | graphStep {d : DatasetH} (r : Nat) (g' : Graph)
      (hr : r < d.heap.length)
      (huri : g'.uri = (d.heap.getD r (Graph.init none)).uri) :
      DReachableH d → DReachableH ⟨d.heap.set r g', d.graphs⟩

/-- The naming invariant that actually holds of the program: every mapping
entry references an existing object, and that object's own name is either
the default `NamedNode(None)` = `"None"` of an auto-created empty graph,
or SOME key of the mapping — its own key right after registration, but
possibly another key after `add_graph` renames the shared object in
place (keys are never deleted: `remove_graph` is `pass`). -/
structure InvH (d : DatasetH) : Prop where
  refsValid : ∀ pr ∈ d.graphs, pr.2 < d.heap.length
  naming : ∀ pr ∈ d.graphs,
    (d.heap.getD pr.2 (Graph.init none)).uri = Term.named "None" ∨
      (d.heap.getD pr.2 (Graph.init none)).uri ∈ d.graphs.map Prod.fst

/-- The aliasing trace `g = Graph("http://ex/a"); ds.add_graph(g);
ds.add_graph(g, named=NamedNode("http://ex/b"))`: the second call renames
the shared object in place, so the entry registered by the first call
keeps its old key but now contains a graph named `"http://ex/b"`. -/
def dAlias : DatasetH :=
  ((DatasetH.init.allocH
      (Graph.init (some "http://ex/a"))).addGraphStateH 0 none).addGraphStateH
    0 (some (Term.named "http://ex/b"))

/-- Graph states reachable through the public interface. `addAll` and
`merge` are sequences of `add` from a constructed state (see
`greachable_addAll` and `greachable_merge`); every state `removeMatches`
passes through — including the state at which its `RuntimeError` aborts —
is a `matchState` step followed by `removeState` steps; `Dataset` sets a
member graph's `_uri` directly, covered by `setUri`. -/
inductive GReachable : Graph → Prop where
  | init (u : Option String) : GReachable (Graph.init u)
  | add {g : Graph} (t : Triple) : GReachable g → GReachable (g.add t)
  | removeStep {g : Graph} (t : Triple) : GReachable g →
      GReachable (g.removeState t)
  | matchViv {g : Graph} (so po oo : Option Term) : GReachable g →
      GReachable (g.matchState so po oo)
  | setUri {g : Graph} (u : Term) : GReachable g →
      GReachable { g with uri := u }

/-- The §3 four-structure invariant, in the form the proofs use: the
primary set is duplicate-free, every index level has distinct keys, and
descending any of the three trees at a key path finds exactly the stored
member triple whose fields give that path. -/
structure INV (g : Graph) : Prop where
  nodup : g.triples.Nodup
  wfS : idx3WF g.spo
  wfP : idx3WF g.pos
  wfO : idx3WF g.osp
  findS : ∀ a b c, idx3Find g.spo a b c =
    if (⟨a, b, c⟩ : Triple) ∈ g.triples then some ⟨a, b, c⟩ else none
  findP : ∀ a b c, idx3Find g.pos a b c =
    if (⟨c, a, b⟩ : Triple) ∈ g.triples then some ⟨c, a, b⟩ else none
  findO : ∀ a b c, idx3Find g.osp a b c =
    if (⟨b, c, a⟩ : Triple) ∈ g.triples then some ⟨b, c, a⟩ else none

/-! Proof development. -/

theorem dGet?_dSet_self {α : Type} (l : List (Term × α)) (k : Term) (v : α) :
    dGet? (dSet l k v) k = some v := by
  induction l with
  | nil => simp [dSet, dGet?]
  | cons hd tl ih =>
    obtain ⟨k', v'⟩ := hd
    by_cases h : k' = k
    · subst h; simp [dSet, dGet?]
    · simp [dSet, dGet?, h, ih]

theorem dGet?_dSet_ne {α : Type} (l : List (Term × α)) {k k' : Term} (v : α)
    (h : k ≠ k') : dGet? (dSet l k v) k' = dGet? l k' := by
  induction l with
  | nil => simp [dSet, dGet?, h]
  | cons hd tl ih =>
    obtain ⟨k'', v''⟩ := hd
    by_cases h2 : k'' = k
    · subst h2; simp [dSet, dGet?, h]
    · simp [dSet, dGet?, h2, ih]

theorem dSet_eq_of_get {α : Type} {l : List (Term × α)} {k : Term} {v : α}
    (h : dGet? l k = some v) : dSet l k v = l := by
  induction l with
  | nil => simp [dGet?] at h
  | cons hd tl ih =>
    obtain ⟨k', v'⟩ := hd
    by_cases h2 : k' = k
    · subst h2
      simp [dGet?] at h
      simp [dSet, h]
    · simp [dGet?, h2] at h
      simp [dSet, h2, ih h]

theorem dGet?_mem {α : Type} {l : List (Term × α)} {k : Term} {v : α}
    (h : dGet? l k = some v) : (k, v) ∈ l := by
  induction l with
  | nil => simp [dGet?] at h
  | cons hd tl ih =>
    obtain ⟨k', v'⟩ := hd
    by_cases h2 : k' = k
    · subst h2
      simp [dGet?] at h
      simp [h]
    · simp [dGet?, h2] at h
      simp [ih h]

theorem dGet?_of_mem_nodup {α : Type} {l : List (Term × α)} {k : Term} {v : α}
    (hw : dKeysNodup l) (h : (k, v) ∈ l) : dGet? l k = some v := by
  induction l with
  | nil => simp at h
  | cons hd tl ih =>
    obtain ⟨k', v'⟩ := hd
    simp only [dKeysNodup, List.map_cons, List.nodup_cons] at hw
    rcases List.mem_cons.mp h with h1 | h1
    · have hk : k' = k := congrArg Prod.fst h1.symm
      have hv : v' = v := congrArg Prod.snd h1.symm
      subst hk; subst hv
      simp [dGet?]
    · by_cases h2 : k' = k
      · subst h2
        exact absurd (List.mem_map.mpr ⟨(k', v), h1, rfl⟩) hw.1
      · simp only [dGet?, if_neg h2]
        exact ih hw.2 h1

theorem mem_dSet {α : Type} {l : List (Term × α)} {k : Term} {v : α}
    {pr : Term × α} (h : pr ∈ dSet l k v) : pr ∈ l ∨ pr = (k, v) := by
  induction l with
  | nil => simp [dSet] at h; simp [h]
  | cons hd tl ih =>
    obtain ⟨k', v'⟩ := hd
    by_cases h2 : k' = k
    · subst h2
      simp [dSet] at h
      rcases h with h | h
      · right; simp [h]
      · left; simp [h]
    · simp [dSet, h2] at h
      rcases h with h | h
      · left; simp [h]
      · rcases ih h with h3 | h3
        · left; simp [h3]
        · right; exact h3

theorem dKeysNodup_dSet {α : Type} {l : List (Term × α)} {k : Term} {v : α}
    (hw : dKeysNodup l) : dKeysNodup (dSet l k v) := by
  induction l with
  | nil => simp [dSet, dKeysNodup]
  | cons hd tl ih =>
    obtain ⟨k', v'⟩ := hd
    simp only [dKeysNodup, List.map_cons, List.nodup_cons] at hw
    by_cases h2 : k' = k
    · subst h2
      have hstep : dSet ((k', v') :: tl) k' v = (k', v) :: tl := by simp [dSet]
      rw [hstep]
      simp only [dKeysNodup, List.map_cons, List.nodup_cons]
      exact hw
    · have htl := ih hw.2
      simp only [dSet, if_neg h2, dKeysNodup, List.map_cons, List.nodup_cons]
      refine ⟨fun hmem => ?_, htl⟩
      rcases List.mem_map.mp hmem with ⟨pr, hpr, hfst⟩
      rcases mem_dSet hpr with h3 | h3
      · exact hw.1 (List.mem_map.mpr ⟨pr, h3, hfst⟩)
      · rw [h3] at hfst
        exact h2 hfst.symm

theorem dGet?_dErase_self {α : Type} {l : List (Term × α)} {k : Term}
    (hw : dKeysNodup l) : dGet? (dErase l k) k = none := by
  induction l with
  | nil => simp [dErase, dGet?]
  | cons hd tl ih =>
    obtain ⟨k', v'⟩ := hd
    simp only [dKeysNodup, List.map_cons, List.nodup_cons] at hw
    by_cases h2 : k' = k
    · subst h2
      have hstep : dErase ((k', v') :: tl) k' = tl := by simp [dErase]
      rw [hstep]
      cases h3 : dGet? tl k' with
      | none => rfl
      | some v => exact absurd (List.mem_map.mpr ⟨(k', v), dGet?_mem h3, rfl⟩) hw.1
    · simp only [dErase, if_neg h2, dGet?]
      exact ih hw.2

theorem dGet?_dErase_ne {α : Type} (l : List (Term × α)) {k k' : Term}
    (h : k ≠ k') : dGet? (dErase l k) k' = dGet? l k' := by
  induction l with
  | nil => simp [dErase]
  | cons hd tl ih =>
    obtain ⟨k'', v''⟩ := hd
    by_cases h2 : k'' = k
    · subst h2; simp [dErase, dGet?, h]
    · simp [dErase, h2, dGet?, ih]

theorem mem_dErase {α : Type} {l : List (Term × α)} {k : Term}
    {pr : Term × α} (h : pr ∈ dErase l k) : pr ∈ l := by
  induction l with
  | nil => simp [dErase] at h
  | cons hd tl ih =>
    obtain ⟨k', v'⟩ := hd
    by_cases h2 : k' = k
    · subst h2; simp [dErase] at h; simp [h]
    · simp [dErase, h2] at h
      rcases h with h | h
      · simp [h]
      · simp [ih h]

theorem dKeysNodup_dErase {α : Type} {l : List (Term × α)} (k : Term)
    (hw : dKeysNodup l) : dKeysNodup (dErase l k) := by
  induction l with
  | nil => simp [dErase, dKeysNodup]
  | cons hd tl ih =>
    obtain ⟨k', v'⟩ := hd
    simp only [dKeysNodup, List.map_cons, List.nodup_cons] at hw
    by_cases h2 : k' = k
    · subst h2
      simpa [dErase, dKeysNodup] using hw.2
    · simp only [dErase, if_neg h2, dKeysNodup, List.map_cons, List.nodup_cons]
      refine ⟨fun hmem => ?_, ih hw.2⟩
      rcases List.mem_map.mp hmem with ⟨pr, hpr, hfst⟩
      exact hw.1 (List.mem_map.mpr ⟨pr, mem_dErase hpr, hfst⟩)

theorem dGet?_append_of_none {α : Type} {l1 : List (Term × α)}
    (l2 : List (Term × α)) {k : Term} (h : dGet? l1 k = none) :
    dGet? (l1 ++ l2) k = dGet? l2 k := by
  induction l1 with
  | nil => simp
  | cons hd tl ih =>
    obtain ⟨k', v'⟩ := hd
    by_cases h2 : k' = k
    · subst h2; simp [dGet?] at h
    · simp [dGet?, h2] at h ⊢
      exact ih h

theorem dGetD_dSet_self {α : Type} (l : List (Term × List α)) (k : Term)
    (v : List α) : dGetD (dSet l k v) k = v := by
  simp [dGetD, dGet?_dSet_self]

theorem dGetD_dSet_ne {α : Type} (l : List (Term × List α)) {k k' : Term}
    (v : List α) (h : k ≠ k') : dGetD (dSet l k v) k' = dGetD l k' := by
  simp [dGetD, dGet?_dSet_ne _ _ h]

theorem idx3Find_set (m : Idx3) (a b c : Term) (t : Triple) (x y z : Term) :
    idx3Find (idx3Set m a b c t) x y z =
      if a = x ∧ b = y ∧ c = z then some t else idx3Find m x y z := by
  simp only [idx3Find, idx3Set]
  by_cases hx : a = x
  · subst hx
    rw [dGetD_dSet_self]
    by_cases hy : b = y
    · subst hy
      rw [dGetD_dSet_self]
      by_cases hz : c = z
      · subst hz
        simp [dGet?_dSet_self]
      · rw [dGet?_dSet_ne _ _ hz]
        simp [hz]
    · rw [dGetD_dSet_ne _ _ hy]
      simp [hy]
  · rw [dGetD_dSet_ne _ _ hx]
    simp [hx]

theorem idx3WF_level2 {m : Idx3} (hw : idx3WF m) (a : Term) :
    dKeysNodup (dGetD m a) ∧ ∀ pr2 ∈ dGetD m a, dKeysNodup pr2.2 := by
  cases h : dGet? m a with
  | none => simp [dGetD, h, dKeysNodup]
  | some m2 =>
    have h2 := hw.2 (a, m2) (dGet?_mem h)
    simpa [dGetD, h] using h2

theorem idx3WF_level1 {m : Idx3} (hw : idx3WF m) (a b : Term) :
    dKeysNodup (dGetD (dGetD m a) b) := by
  have hunf : dGetD (dGetD m a) b = (dGet? (dGetD m a) b).getD [] := rfl
  cases h : dGet? (dGetD m a) b with
  | none =>
    rw [hunf, h]
    simp [dKeysNodup]
  | some m1 =>
    rw [hunf, h]
    exact (idx3WF_level2 hw a).2 (b, m1) (dGet?_mem h)

theorem idx3WF_set {m : Idx3} (hw : idx3WF m) (a b c : Term) (t : Triple) :
    idx3WF (idx3Set m a b c t) := by
  constructor
  · exact dKeysNodup_dSet hw.1
  · intro pr hpr
    rcases mem_dSet hpr with h | h
    · exact hw.2 pr h
    · subst h
      refine ⟨dKeysNodup_dSet (idx3WF_level2 hw a).1, fun pr2 hpr2 => ?_⟩
      rcases mem_dSet hpr2 with h2 | h2
      · exact (idx3WF_level2 hw a).2 pr2 h2
      · rw [h2]
        exact dKeysNodup_dSet (idx3WF_level1 hw a b)

theorem idx3Del_spec {m : Idx3} (hw : idx3WF m) {a b c : Term} {t0 : Triple}
    (hv : idx3Find m a b c = some t0) :
    idx3Del m a b c =
      .ok (dSet m a (dSet (dGetD m a) b (dErase (dGetD (dGetD m a) b) c))) ∧
    idx3WF (dSet m a (dSet (dGetD m a) b (dErase (dGetD (dGetD m a) b) c))) ∧
    ∀ x y z,
      idx3Find (dSet m a (dSet (dGetD m a) b (dErase (dGetD (dGetD m a) b) c))) x y z =
        if a = x ∧ b = y ∧ c = z then none else idx3Find m x y z := by
  have hterm : dGet? (dGetD (dGetD m a) b) c = some t0 := hv
  refine ⟨?_, ?_, ?_⟩
  · simp [idx3Del, hterm]
  · constructor
    · exact dKeysNodup_dSet hw.1
    · intro pr hpr
      rcases mem_dSet hpr with h | h
      · exact hw.2 pr h
      · subst h
        refine ⟨dKeysNodup_dSet (idx3WF_level2 hw a).1, fun pr2 hpr2 => ?_⟩
        rcases mem_dSet hpr2 with h2 | h2
        · exact (idx3WF_level2 hw a).2 pr2 h2
        · rw [h2]
          exact dKeysNodup_dErase c (idx3WF_level1 hw a b)
  · intro x y z
    simp only [idx3Find]
    by_cases hx : a = x
    · subst hx
      rw [dGetD_dSet_self]
      by_cases hy : b = y
      · subst hy
        rw [dGetD_dSet_self]
        by_cases hz : c = z
        · subst hz
          rw [dGet?_dErase_self (idx3WF_level1 hw a b)]
          simp
        · rw [dGet?_dErase_ne _ hz]
          simp [hz]
      · rw [dGetD_dSet_ne _ _ hy]
        simp [hy]
    · rw [dGetD_dSet_ne _ _ hx]
      simp [hx]

theorem idx3Find_viv1 (m : Idx3) (a x y z : Term) :
    idx3Find (viv1 m a) x y z = idx3Find m x y z := by
  simp only [idx3Find, viv1]
  by_cases hx : a = x
  · subst hx; rw [dGetD_dSet_self]
  · rw [dGetD_dSet_ne _ _ hx]

theorem idx3WF_viv1 {m : Idx3} (hw : idx3WF m) (a : Term) : idx3WF (viv1 m a) := by
  constructor
  · exact dKeysNodup_dSet hw.1
  · intro pr hpr
    rcases mem_dSet hpr with h | h
    · exact hw.2 pr h
    · subst h
      exact ⟨(idx3WF_level2 hw a).1, (idx3WF_level2 hw a).2⟩

theorem idx3Find_viv2 (m : Idx3) (a b x y z : Term) :
    idx3Find (viv2 m a b) x y z = idx3Find m x y z := by
  simp only [idx3Find, viv2]
  by_cases hx : a = x
  · subst hx
    rw [dGetD_dSet_self]
    by_cases hy : b = y
    · subst hy; rw [dGetD_dSet_self]
    · rw [dGetD_dSet_ne _ _ hy]
  · rw [dGetD_dSet_ne _ _ hx]

theorem idx3WF_viv2 {m : Idx3} (hw : idx3WF m) (a b : Term) :
    idx3WF (viv2 m a b) := by
  constructor
  · exact dKeysNodup_dSet hw.1
  · intro pr hpr
    rcases mem_dSet hpr with h | h
    · exact hw.2 pr h
    · subst h
      refine ⟨dKeysNodup_dSet (idx3WF_level2 hw a).1, fun pr2 hpr2 => ?_⟩
      rcases mem_dSet hpr2 with h2 | h2
      · exact (idx3WF_level2 hw a).2 pr2 h2
      · rw [h2]
        exact idx3WF_level1 hw a b


theorem find_insert_aux {m : Idx3} {tr : List Triple}
    (mk : Term → Term → Term → Triple) (k1 k2 k3 : Triple → Term)
    (hmk : ∀ t, mk (k1 t) (k2 t) (k3 t) = t)
    (hk : ∀ a b c, k1 (mk a b c) = a ∧ k2 (mk a b c) = b ∧ k3 (mk a b c) = c)
    (hf : ∀ a b c, idx3Find m a b c =
      if mk a b c ∈ tr then some (mk a b c) else none)
    (t : Triple) (a b c : Term) :
    idx3Find (idx3Set m (k1 t) (k2 t) (k3 t) t) a b c =
      if mk a b c ∈ tr.insert t then some (mk a b c) else none := by
  rw [idx3Find_set, hf]
  by_cases h : k1 t = a ∧ k2 t = b ∧ k3 t = c
  · obtain ⟨h1, h2, h3⟩ := h
    have ht : mk a b c = t := by rw [← h1, ← h2, ← h3, hmk]
    rw [if_pos ⟨h1, h2, h3⟩, ht, if_pos (List.mem_insert_self t tr)]
  · have hne : mk a b c ≠ t := by
      intro he
      refine h ⟨?_, ?_, ?_⟩
      · rw [← he, (hk a b c).1]
      · rw [← he, (hk a b c).2.1]
      · rw [← he, (hk a b c).2.2]
    rw [if_neg h]
    by_cases hm : mk a b c ∈ tr
    · rw [if_pos hm, if_pos (List.mem_insert_iff.mpr (Or.inr hm))]
    · have hni : mk a b c ∉ tr.insert t := by
        intro hc
        rcases List.mem_insert_iff.mp hc with hc1 | hc1
        · exact hne hc1
        · exact hm hc1
      rw [if_neg hm, if_neg hni]

theorem find_erase_aux {tr : List Triple}
    (mk : Term → Term → Term → Triple) (k1 k2 k3 : Triple → Term)
    (hmk : ∀ t, mk (k1 t) (k2 t) (k3 t) = t)
    (hk : ∀ a b c, k1 (mk a b c) = a ∧ k2 (mk a b c) = b ∧ k3 (mk a b c) = c)
    (hnd : tr.Nodup) (t : Triple) (a b c : Term) :
    (if k1 t = a ∧ k2 t = b ∧ k3 t = c then none
     else if mk a b c ∈ tr then some (mk a b c) else none) =
      if mk a b c ∈ tr.erase t then some (mk a b c) else none := by
  by_cases h : k1 t = a ∧ k2 t = b ∧ k3 t = c
  · obtain ⟨h1, h2, h3⟩ := h
    have ht : mk a b c = t := by rw [← h1, ← h2, ← h3, hmk]
    have hni : mk a b c ∉ tr.erase t := by
      rw [ht]
      intro hc
      exact absurd rfl (hnd.mem_erase_iff.mp hc).1
    rw [if_pos ⟨h1, h2, h3⟩, if_neg hni]
  · have hne : mk a b c ≠ t := by
      intro he
      refine h ⟨?_, ?_, ?_⟩
      · rw [← he, (hk a b c).1]
      · rw [← he, (hk a b c).2.1]
      · rw [← he, (hk a b c).2.2]
    rw [if_neg h]
    by_cases hm : mk a b c ∈ tr
    · rw [if_pos hm, if_pos (hnd.mem_erase_iff.mpr ⟨hne, hm⟩)]
    · have hni : mk a b c ∉ tr.erase t := fun hc =>
        hm (hnd.mem_erase_iff.mp hc).2
      rw [if_neg hm, if_neg hni]

theorem inv_init (u : Option String) : INV (Graph.init u) := by
  refine ⟨?_, ?_, ?_, ?_, ?_, ?_, ?_⟩ <;>
    simp [Graph.init, idx3WF, idx3Find, dKeysNodup, dGetD, dGet?]

theorem inv_add {g : Graph} (hi : INV g) (t : Triple) : INV (g.add t) := by
  refine ⟨hi.nodup.insert, idx3WF_set hi.wfS _ _ _ _, idx3WF_set hi.wfP _ _ _ _,
    idx3WF_set hi.wfO _ _ _ _, ?_, ?_, ?_⟩
  · exact find_insert_aux (fun a b c => ⟨a, b, c⟩) Triple.subject Triple.predicate
      Triple.object (fun _ => rfl) (fun _ _ _ => ⟨rfl, rfl, rfl⟩) hi.findS t
  · exact find_insert_aux (fun a b c => ⟨c, a, b⟩) Triple.predicate Triple.object
      Triple.subject (fun _ => rfl) (fun _ _ _ => ⟨rfl, rfl, rfl⟩) hi.findP t
  · exact find_insert_aux (fun a b c => ⟨b, c, a⟩) Triple.object Triple.subject
      Triple.predicate (fun _ => rfl) (fun _ _ _ => ⟨rfl, rfl, rfl⟩) hi.findO t

/-- Under the invariant, removing a member triple takes the success path of
all three index deletes and yields the graph with the triple erased from
all four structures. -/
theorem remove_ok {g : Graph} (hi : INV g) {t : Triple} (ht : t ∈ g.triples) :
    ∃ g', g.remove t = .ok g' ∧ g'.uri = g.uri ∧
      g'.triples = g.triples.erase t ∧ INV g' := by
  have hfS : idx3Find g.spo t.subject t.predicate t.object = some t := by
    rw [hi.findS, if_pos ht]
  have hfP : idx3Find g.pos t.predicate t.object t.subject = some t := by
    rw [hi.findP, if_pos ht]
  have hfO : idx3Find g.osp t.object t.subject t.predicate = some t := by
    rw [hi.findO, if_pos ht]
  obtain ⟨hdS, hwS, hfindS⟩ := idx3Del_spec hi.wfS hfS
  obtain ⟨hdP, hwP, hfindP⟩ := idx3Del_spec hi.wfP hfP
  obtain ⟨hdO, hwO, hfindO⟩ := idx3Del_spec hi.wfO hfO
  refine ⟨Graph.mk g.uri (g.triples.erase t)
      (dSet g.spo t.subject (dSet (dGetD g.spo t.subject) t.predicate
        (dErase (dGetD (dGetD g.spo t.subject) t.predicate) t.object)))
      (dSet g.pos t.predicate (dSet (dGetD g.pos t.predicate) t.object
        (dErase (dGetD (dGetD g.pos t.predicate) t.object) t.subject)))
      (dSet g.osp t.object (dSet (dGetD g.osp t.object) t.subject
        (dErase (dGetD (dGetD g.osp t.object) t.subject) t.predicate))),
    ?_, rfl, rfl, ?_⟩
  · simp only [Graph.remove, if_pos ht, hdS, hdP, hdO]
  · refine ⟨hi.nodup.erase t, hwS, hwP, hwO, ?_, ?_, ?_⟩
    · intro a b c
      rw [hfindS a b c, hi.findS]
      exact find_erase_aux (fun a b c => ⟨a, b, c⟩) Triple.subject
        Triple.predicate Triple.object (fun _ => rfl)
        (fun _ _ _ => ⟨rfl, rfl, rfl⟩) hi.nodup t a b c
    · intro a b c
      rw [hfindP a b c, hi.findP]
      exact find_erase_aux (fun a b c => ⟨c, a, b⟩) Triple.predicate
        Triple.object Triple.subject (fun _ => rfl)
        (fun _ _ _ => ⟨rfl, rfl, rfl⟩) hi.nodup t a b c
    · intro a b c
      rw [hfindO a b c, hi.findO]
      exact find_erase_aux (fun a b c => ⟨b, c, a⟩) Triple.object
        Triple.subject Triple.predicate (fun _ => rfl)
        (fun _ _ _ => ⟨rfl, rfl, rfl⟩) hi.nodup t a b c

theorem inv_removeState {g : Graph} (hi : INV g) (t : Triple) :
    INV (g.removeState t) := by
  by_cases ht : t ∈ g.triples
  · obtain ⟨g', hok, _, _, hinv⟩ := remove_ok hi ht
    rw [Graph.removeState, hok]
    exact hinv
  · rw [Graph.removeState, Graph.remove, if_neg ht]
    exact hi

theorem inv_matchState {g : Graph} (hi : INV g) (so po oo : Option Term) :
    INV (g.matchState so po oo) := by
  have hS1 : ∀ a, INV { g with spo := viv1 g.spo a } := fun a =>
    ⟨hi.nodup, idx3WF_viv1 hi.wfS a, hi.wfP, hi.wfO,
      fun x y z => (idx3Find_viv1 _ a x y z).trans (hi.findS x y z),
      hi.findP, hi.findO⟩
  have hS2 : ∀ a b, INV { g with spo := viv2 g.spo a b } := fun a b =>
    ⟨hi.nodup, idx3WF_viv2 hi.wfS a b, hi.wfP, hi.wfO,
      fun x y z => (idx3Find_viv2 _ a b x y z).trans (hi.findS x y z),
      hi.findP, hi.findO⟩
  have hP1 : ∀ a, INV { g with pos := viv1 g.pos a } := fun a =>
    ⟨hi.nodup, hi.wfS, idx3WF_viv1 hi.wfP a, hi.wfO, hi.findS,
      fun x y z => (idx3Find_viv1 _ a x y z).trans (hi.findP x y z), hi.findO⟩
  have hP2 : ∀ a b, INV { g with pos := viv2 g.pos a b } := fun a b =>
    ⟨hi.nodup, hi.wfS, idx3WF_viv2 hi.wfP a b, hi.wfO, hi.findS,
      fun x y z => (idx3Find_viv2 _ a b x y z).trans (hi.findP x y z), hi.findO⟩
  have hO1 : ∀ a, INV { g with osp := viv1 g.osp a } := fun a =>
    ⟨hi.nodup, hi.wfS, hi.wfP, idx3WF_viv1 hi.wfO a, hi.findS, hi.findP,
      fun x y z => (idx3Find_viv1 _ a x y z).trans (hi.findO x y z)⟩
  have hO2 : ∀ a b, INV { g with osp := viv2 g.osp a b } := fun a b =>
    ⟨hi.nodup, hi.wfS, hi.wfP, idx3WF_viv2 hi.wfO a b, hi.findS, hi.findP,
      fun x y z => (idx3Find_viv2 _ a b x y z).trans (hi.findO x y z)⟩
  unfold Graph.matchState
  by_cases hs : truthyO so <;> by_cases hp : truthyO po <;>
    by_cases ho : truthyO oo <;>
    simp only [hs, hp, ho, if_true, if_false] <;>
    first
      | exact hi
      | exact hS1 _
      | exact hS2 _ _
      | exact hP1 _
      | exact hP2 _ _
      | exact hO1 _
      | exact hO2 _ _

theorem inv_uri {g : Graph} (hi : INV g) (u : Term) : INV { g with uri := u } :=
  ⟨hi.nodup, hi.wfS, hi.wfP, hi.wfO, hi.findS, hi.findP, hi.findO⟩

/-- Every reachable graph satisfies the four-structure invariant. -/
theorem inv_reachable {g : Graph} (hg : GReachable g) : INV g := by
  induction hg with
  | init u => exact inv_init u
  | add t _ ih => exact inv_add ih t
  | removeStep t _ ih => exact inv_removeState ih t
  | matchViv so po oo _ ih => exact inv_matchState ih so po oo
  | setUri u _ ih => exact inv_uri ih u

theorem greachable_addAll {g : Graph} (hg : GReachable g) (ts : List Triple) :
    GReachable (g.addAll ts) := by
  induction ts generalizing g with
  | nil => exact hg
  | cons t ts ih => exact ih (GReachable.add t hg)

theorem greachable_merge (g other : Graph) : GReachable (g.merge other) :=
  greachable_addAll (greachable_addAll (GReachable.init none) _) _

theorem mem_idxVals2 {m : Idx3} {L : List Triple}
    (mk : Term → Term → Term → Triple) (hw : idx3WF m)
    (hf : ∀ a b c, idx3Find m a b c =
      if mk a b c ∈ L then some (mk a b c) else none)
    (a b : Term) (t : Triple) :
    t ∈ idxVals2 m a b ↔ ∃ c, t = mk a b c ∧ t ∈ L := by
  constructor
  · intro hmem
    rcases List.mem_map.mp hmem with ⟨pr, hpr, hsnd⟩
    have hget : dGet? (dGetD (dGetD m a) b) pr.1 = some pr.2 :=
      dGet?_of_mem_nodup (idx3WF_level1 hw a b) (by exact hpr)
    have hfind : idx3Find m a b pr.1 = some pr.2 := hget
    rw [hf] at hfind
    by_cases hL : mk a b pr.1 ∈ L
    · rw [if_pos hL] at hfind
      injection hfind with h2
      refine ⟨pr.1, ?_, ?_⟩
      · rw [← hsnd, ← h2]
      · rw [← hsnd, ← h2]
        exact hL
    · rw [if_neg hL] at hfind
      exact absurd hfind (by simp)
  · rintro ⟨c, rfl, hL⟩
    have hfind : idx3Find m a b c = some (mk a b c) := by
      rw [hf, if_pos hL]
    exact List.mem_map.mpr ⟨(c, mk a b c), dGet?_mem hfind, rfl⟩

theorem mem_idxVals1 {m : Idx3} {L : List Triple}
    (mk : Term → Term → Term → Triple) (hw : idx3WF m)
    (hf : ∀ a b c, idx3Find m a b c =
      if mk a b c ∈ L then some (mk a b c) else none)
    (a : Term) (t : Triple) :
    t ∈ idxVals1 m a ↔ ∃ b c, t = mk a b c ∧ t ∈ L := by
  constructor
  · intro hmem
    rcases List.mem_flatMap.mp hmem with ⟨pr, hpr, hmem2⟩
    rcases List.mem_map.mp hmem2 with ⟨pr2, hpr2, hsnd⟩
    have hget : dGet? (dGetD (dGetD m a) pr.1) pr2.1 = some pr2.2 :=
      dGet?_of_mem_nodup (idx3WF_level1 hw a pr.1) (by exact hpr2)
    have hfind : idx3Find m a pr.1 pr2.1 = some pr2.2 := hget
    rw [hf] at hfind
    by_cases hL : mk a pr.1 pr2.1 ∈ L
    · rw [if_pos hL] at hfind
      injection hfind with h2
      refine ⟨pr.1, pr2.1, ?_, ?_⟩
      · rw [← hsnd, ← h2]
      · rw [← hsnd, ← h2]
        exact hL
    · rw [if_neg hL] at hfind
      exact absurd hfind (by simp)
  · rintro ⟨b, c, rfl, hL⟩
    have hfind : idx3Find m a b c = some (mk a b c) := by
      rw [hf, if_pos hL]
    have hunf : dGetD (dGetD m a) b = (dGet? (dGetD m a) b).getD [] := rfl
    cases hb : dGet? (dGetD m a) b with
    | none =>
      have hnone : idx3Find m a b c = none := by
        simp only [idx3Find, hunf, hb, Option.getD_none]
        rfl
      rw [hnone] at hfind
      exact absurd hfind (by simp)
    | some m1 =>
      have hm1eq : dGetD (dGetD m a) b = m1 := by
        rw [hunf, hb, Option.getD_some]
      have hget : dGet? m1 c = some (mk a b c) := by
        have h3 : dGet? (dGetD (dGetD m a) b) c = some (mk a b c) := hfind
        rw [hm1eq] at h3
        exact h3
      refine List.mem_flatMap.mpr ⟨(b, m1), dGet?_mem hb, ?_⟩
      refine List.mem_map.mpr ⟨(c, mk a b c), ?_, rfl⟩
      have heq2 : dGetD (dGetD m a) (b, m1).1 = m1 := hm1eq
      rw [heq2]
      exact dGet?_mem hget

theorem exists2_iff (mk : Term → Term → Term → Triple)
    (k1 k2 k3 : Triple → Term)
    (hmk : ∀ t, mk (k1 t) (k2 t) (k3 t) = t)
    (hk : ∀ a b c, k1 (mk a b c) = a ∧ k2 (mk a b c) = b)
    (L : List Triple) (a b : Term) (t : Triple) :
    (∃ c, t = mk a b c ∧ t ∈ L) ↔ t ∈ L ∧ k1 t = a ∧ k2 t = b := by
  constructor
  · rintro ⟨c, rfl, hL⟩
    exact ⟨hL, (hk a b c).1, (hk a b c).2⟩
  · rintro ⟨hL, h1, h2⟩
    exact ⟨k3 t, by rw [← h1, ← h2, hmk], hL⟩

theorem exists1_iff (mk : Term → Term → Term → Triple)
    (k1 k2 k3 : Triple → Term)
    (hmk : ∀ t, mk (k1 t) (k2 t) (k3 t) = t)
    (hk : ∀ a b c, k1 (mk a b c) = a)
    (L : List Triple) (a : Term) (t : Triple) :
    (∃ b c, t = mk a b c ∧ t ∈ L) ↔ t ∈ L ∧ k1 t = a := by
  constructor
  · rintro ⟨b, c, rfl, hL⟩
    exact ⟨hL, hk a b c⟩
  · rintro ⟨hL, h1⟩
    exact ⟨k2 t, k3 t, by rw [← h1, hmk], hL⟩

theorem truthyFieldMatch_pos {arg : Option Term} (h : truthyO arg = true)
    (x : Term) : truthyFieldMatch arg x = decide (x = tval arg) := by
  cases arg with
  | none => simp [truthyO] at h
  | some v =>
    simp only [truthyO] at h
    simp [truthyFieldMatch, tval, h]

theorem truthyFieldMatch_neg {arg : Option Term} (h : truthyO arg = false)
    (x : Term) : truthyFieldMatch arg x = true := by
  cases arg with
  | none => rfl
  | some v =>
    simp only [truthyO] at h
    simp [truthyFieldMatch, h]

theorem mem_bruteMatchTruthy (g : Graph) (so po oo : Option Term)
    (t : Triple) :
    t ∈ bruteMatchTruthy g so po oo ↔
      t ∈ g.triples ∧ truthyFieldMatch so t.subject = true ∧
        truthyFieldMatch po t.predicate = true ∧
        truthyFieldMatch oo t.object = true := by
  simp [bruteMatchTruthy, List.mem_filter, and_assoc]

theorem match_eq_filter_aux {g : Graph} (hi : INV g)
    (so po oo : Option Term) (t : Triple) :
    t ∈ g.matchT so po oo ↔ t ∈ bruteMatchTruthy g so po oo := by
  rw [mem_bruteMatchTruthy]
  unfold Graph.matchT
  by_cases hs : truthyO so = true
  · rw [if_pos hs]
    by_cases hp : truthyO po = true
    · rw [if_pos hp]
      by_cases ho : truthyO oo = true
      · rw [if_pos ho]
        constructor
        · intro hmem
          by_cases hin : (⟨tval so, tval po, tval oo⟩ : Triple) ∈ g.triples
          · rw [if_pos hin] at hmem
            have ht : t = ⟨tval so, tval po, tval oo⟩ := by simpa using hmem
            subst ht
            refine ⟨hin, ?_, ?_, ?_⟩
            · rw [truthyFieldMatch_pos hs]
              simp
            · rw [truthyFieldMatch_pos hp]
              simp
            · rw [truthyFieldMatch_pos ho]
              simp
          · rw [if_neg hin] at hmem
            simp at hmem
        · rintro ⟨htr, h1, h2, h3⟩
          rw [truthyFieldMatch_pos hs, decide_eq_true_eq] at h1
          rw [truthyFieldMatch_pos hp, decide_eq_true_eq] at h2
          rw [truthyFieldMatch_pos ho, decide_eq_true_eq] at h3
          have ht : (⟨tval so, tval po, tval oo⟩ : Triple) = t := by
            rw [← h1, ← h2, ← h3]
          rw [ht, if_pos htr]
          simp
      · rw [if_neg ho]
        have ho' : truthyO oo = false := by rwa [Bool.not_eq_true] at ho
        rw [mem_idxVals2 (fun a b c => ⟨a, b, c⟩) hi.wfS hi.findS,
          exists2_iff (fun a b c => ⟨a, b, c⟩) Triple.subject Triple.predicate
            Triple.object (fun _ => rfl) (fun _ _ _ => ⟨rfl, rfl⟩),
          truthyFieldMatch_pos hs, truthyFieldMatch_pos hp,
          truthyFieldMatch_neg ho']
        simp only [decide_eq_true_eq]
        tauto
    · rw [if_neg hp]
      have hp' : truthyO po = false := by rwa [Bool.not_eq_true] at hp
      by_cases ho : truthyO oo = true
      · rw [if_pos ho]
        rw [mem_idxVals2 (fun a b c => ⟨b, c, a⟩) hi.wfO hi.findO,
          exists2_iff (fun a b c => ⟨b, c, a⟩) Triple.object Triple.subject
            Triple.predicate (fun _ => rfl) (fun _ _ _ => ⟨rfl, rfl⟩),
          truthyFieldMatch_pos hs, truthyFieldMatch_neg hp',
          truthyFieldMatch_pos ho]
        simp only [decide_eq_true_eq]
        tauto
      · rw [if_neg ho]
        have ho' : truthyO oo = false := by rwa [Bool.not_eq_true] at ho
        rw [mem_idxVals1 (fun a b c => ⟨a, b, c⟩) hi.wfS hi.findS,
          exists1_iff (fun a b c => ⟨a, b, c⟩) Triple.subject Triple.predicate
            Triple.object (fun _ => rfl) (fun _ _ _ => rfl),
          truthyFieldMatch_pos hs, truthyFieldMatch_neg hp',
          truthyFieldMatch_neg ho']
        simp only [decide_eq_true_eq]
        tauto
  · rw [if_neg hs]
    have hs' : truthyO so = false := by rwa [Bool.not_eq_true] at hs
    by_cases hp : truthyO po = true
    · rw [if_pos hp]
      by_cases ho : truthyO oo = true
      · rw [if_pos ho]
        rw [mem_idxVals2 (fun a b c => ⟨c, a, b⟩) hi.wfP hi.findP,
          exists2_iff (fun a b c => ⟨c, a, b⟩) Triple.predicate Triple.object
            Triple.subject (fun _ => rfl) (fun _ _ _ => ⟨rfl, rfl⟩),
          truthyFieldMatch_neg hs', truthyFieldMatch_pos hp,
          truthyFieldMatch_pos ho]
        simp only [decide_eq_true_eq]
        tauto
      · rw [if_neg ho]
        have ho' : truthyO oo = false := by rwa [Bool.not_eq_true] at ho
        rw [mem_idxVals1 (fun a b c => ⟨c, a, b⟩) hi.wfP hi.findP,
          exists1_iff (fun a b c => ⟨c, a, b⟩) Triple.predicate Triple.object
            Triple.subject (fun _ => rfl) (fun _ _ _ => rfl),
          truthyFieldMatch_neg hs', truthyFieldMatch_pos hp,
          truthyFieldMatch_neg ho']
        simp only [decide_eq_true_eq]
        tauto
    · rw [if_neg hp]
      have hp' : truthyO po = false := by rwa [Bool.not_eq_true] at hp
      by_cases ho : truthyO oo = true
      · rw [if_pos ho]
        rw [mem_idxVals1 (fun a b c => ⟨b, c, a⟩) hi.wfO hi.findO,
          exists1_iff (fun a b c => ⟨b, c, a⟩) Triple.object Triple.subject
            Triple.predicate (fun _ => rfl) (fun _ _ _ => rfl),
          truthyFieldMatch_neg hs', truthyFieldMatch_neg hp',
          truthyFieldMatch_pos ho]
        simp only [decide_eq_true_eq]
        tauto
      · rw [if_neg ho]
        have ho' : truthyO oo = false := by rwa [Bool.not_eq_true] at ho
        rw [truthyFieldMatch_neg hs', truthyFieldMatch_neg hp',
          truthyFieldMatch_neg ho']
        simp

theorem removeState_uri (g : Graph) (t : Triple) :
    (g.removeState t).uri = g.uri := by
  unfold Graph.removeState Graph.remove
  by_cases h : t ∈ g.triples
  · simp only [if_pos h]
    cases idx3Del g.spo t.subject t.predicate t.object with
    | error spoV => rfl
    | ok spo1 =>
      cases idx3Del g.pos t.predicate t.object t.subject with
      | error posV => rfl
      | ok pos1 =>
        cases idx3Del g.osp t.object t.subject t.predicate with
        | error ospV => rfl
        | ok osp1 => rfl
  · simp only [if_neg h]

theorem getD_append_lt {α : Type} {l : List α} (l2 : List α) {i : Nat}
    (h : i < l.length) (dft : α) : (l ++ l2).getD i dft = l.getD i dft := by
  induction l generalizing i with
  | nil => simp at h
  | cons a as ih =>
    cases i with
    | zero => rfl
    | succ n =>
      simp only [List.cons_append, List.getD_cons_succ]
      exact ih (by simpa using h)

theorem getD_append_len {α : Type} (l : List α) (x : α) (dft : α) :
    (l ++ [x]).getD l.length dft = x := by
  induction l with
  | nil => rfl
  | cons a as ih =>
    simpa only [List.cons_append, List.length_cons, List.getD_cons_succ]
      using ih

theorem getD_set_self {α : Type} {l : List α} {i : Nat} (h : i < l.length)
    (a dft : α) : (l.set i a).getD i dft = a := by
  induction l generalizing i with
  | nil => simp at h
  | cons b bs ih =>
    cases i with
    | zero => rfl
    | succ n =>
      simp only [List.set_cons_succ, List.getD_cons_succ]
      exact ih (by simpa using h)

theorem getD_set_ne {α : Type} (l : List α) {i j : Nat} (h : i ≠ j)
    (a dft : α) : (l.set i a).getD j dft = l.getD j dft := by
  induction l generalizing i j with
  | nil => rfl
  | cons b bs ih =>
    cases i with
    | zero =>
      cases j with
      | zero => exact absurd rfl h
      | succ m => rfl
    | succ n =>
      cases j with
      | zero => rfl
      | succ m =>
        simp only [List.set_cons_succ, List.getD_cons_succ]
        exact ih (fun hh => h (congrArg Nat.succ hh))

theorem mem_keys_iff {α : Type} (l : List (Term × α)) (k : Term) :
    k ∈ l.map Prod.fst ↔ (dGet? l k).isSome = true := by
  induction l with
  | nil => simp [dGet?]
  | cons hd tl ih =>
    obtain ⟨k', v'⟩ := hd
    by_cases h : k' = k
    · subst h
      simp [dGet?]
    · simp only [List.map_cons, List.mem_cons, dGet?, if_neg h]
      rw [← ih]
      constructor
      · intro hc
        rcases hc with hc | hc
        · exact absurd hc.symm h
        · exact hc
      · intro hc
        exact Or.inr hc

theorem keys_dSet_self {α : Type} (l : List (Term × α)) (k : Term) (v : α) :
    k ∈ (dSet l k v).map Prod.fst := by
  rw [mem_keys_iff, dGet?_dSet_self]
  rfl

theorem keys_dSet_mono {α : Type} {l : List (Term × α)} {k' : Term}
    (k : Term) (v : α) (h : k' ∈ l.map Prod.fst) :
    k' ∈ (dSet l k v).map Prod.fst := by
  rw [mem_keys_iff] at h ⊢
  by_cases he : k = k'
  · subst he
    rw [dGet?_dSet_self]
    rfl
  · rw [dGet?_dSet_ne _ _ he]
    exact h

theorem vivifyH_ref_lt {d : DatasetH} (hi : InvH d) (k : Term) :
    (d.vivifyH k).1 < (d.vivifyH k).2.heap.length := by
  cases h : dGet? d.graphs k with
  | some r =>
    have heq : d.vivifyH k = (r, d) := by simp [DatasetH.vivifyH, h]
    rw [heq]
    exact hi.refsValid (k, r) (dGet?_mem h)
  | none =>
    have heq : d.vivifyH k = (d.heap.length,
        ⟨d.heap ++ [Graph.init none], d.graphs ++ [(k, d.heap.length)]⟩) := by
      simp [DatasetH.vivifyH, h]
    rw [heq]
    simp

theorem vivifyH_key_mem (d : DatasetH) (k : Term) :
    k ∈ (d.vivifyH k).2.graphs.map Prod.fst := by
  cases h : dGet? d.graphs k with
  | some r =>
    have heq : d.vivifyH k = (r, d) := by simp [DatasetH.vivifyH, h]
    rw [heq]
    exact List.mem_map.mpr ⟨(k, r), dGet?_mem h, rfl⟩
  | none =>
    have heq : d.vivifyH k = (d.heap.length,
        ⟨d.heap ++ [Graph.init none], d.graphs ++ [(k, d.heap.length)]⟩) := by
      simp [DatasetH.vivifyH, h]
    rw [heq]
    simp

theorem invH_init : InvH DatasetH.init := by
  constructor
  · intro pr hpr
    simp [DatasetH.init] at hpr
  · intro pr hpr
    simp [DatasetH.init] at hpr

theorem invH_alloc {d : DatasetH} (hi : InvH d) (g0 : Graph) :
    InvH (d.allocH g0) := by
  constructor
  · intro pr hpr
    have h1 := hi.refsValid pr hpr
    simp only [DatasetH.allocH, List.length_append, List.length_singleton]
    omega
  · intro pr hpr
    have hlt := hi.refsValid pr hpr
    show ((d.heap ++ [g0]).getD pr.2 (Graph.init none)).uri = Term.named "None" ∨
      ((d.heap ++ [g0]).getD pr.2 (Graph.init none)).uri ∈ d.graphs.map Prod.fst
    rw [getD_append_lt _ hlt]
    exact hi.naming pr hpr

theorem invH_vivify {d : DatasetH} (hi : InvH d) (k : Term) :
    InvH (d.vivifyH k).2 := by
  cases h : dGet? d.graphs k with
  | some r =>
    have heq : (d.vivifyH k).2 = d := by simp [DatasetH.vivifyH, h]
    rw [heq]
    exact hi
  | none =>
    have heq : (d.vivifyH k).2 =
        ⟨d.heap ++ [Graph.init none], d.graphs ++ [(k, d.heap.length)]⟩ := by
      simp [DatasetH.vivifyH, h]
    rw [heq]
    constructor
    · intro pr hpr
      rcases List.mem_append.mp hpr with h1 | h1
      · have h2 := hi.refsValid pr h1
        simp only [List.length_append, List.length_singleton]
        omega
      · have h2 : pr = (k, d.heap.length) := by simpa using h1
        rw [h2]
        simp
    · intro pr hpr
      rcases List.mem_append.mp hpr with h1 | h1
      · have hlt := hi.refsValid pr h1
        show ((d.heap ++ [Graph.init none]).getD pr.2 (Graph.init none)).uri
          = _ ∨ _
        rw [getD_append_lt _ hlt]
        rcases hi.naming pr h1 with h2 | h2
        · exact Or.inl h2
        · refine Or.inr ?_
          simp only [List.map_append]
          exact List.mem_append.mpr (Or.inl h2)
      · have h2 : pr = (k, d.heap.length) := by simpa using h1
        rw [h2]
        refine Or.inl ?_
        show ((d.heap ++ [Graph.init none]).getD d.heap.length
          (Graph.init none)).uri = _
        rw [getD_append_len]
        rfl

theorem invH_set_at {d : DatasetH} (hi : InvH d) (r : Nat) (g' : Graph)
    (hr : r < d.heap.length)
    (hg : g'.uri = Term.named "None" ∨ g'.uri ∈ d.graphs.map Prod.fst ∨
      g'.uri = (d.heap.getD r (Graph.init none)).uri) :
    InvH ⟨d.heap.set r g', d.graphs⟩ := by
  constructor
  · intro pr hpr
    have h1 := hi.refsValid pr hpr
    simpa [List.length_set] using h1
  · intro pr hpr
    by_cases he : pr.2 = r
    · show ((d.heap.set r g').getD pr.2 (Graph.init none)).uri = _ ∨ _
      rw [he, getD_set_self hr]
      rcases hg with h2 | h2 | h2
      · exact Or.inl h2
      · exact Or.inr h2
      · rw [h2]
        have h3 := hi.naming pr hpr
        rw [he] at h3
        exact h3
    · show ((d.heap.set r g').getD pr.2 (Graph.init none)).uri = _ ∨ _
      rw [getD_set_ne _ (fun hh => he hh.symm)]
      exact hi.naming pr hpr

theorem invH_add {d : DatasetH} (hi : InvH d) (q : Quad) :
    InvH (d.addH q) := by
  have hv := invH_vivify hi q.graph
  have hvr := vivifyH_ref_lt hi q.graph
  have hkey := vivifyH_key_mem d q.graph
  have heq : d.addH q = ⟨(d.vivifyH q.graph).2.heap.set (d.vivifyH q.graph).1
      ({ (d.vivifyH q.graph).2.heap.getD (d.vivifyH q.graph).1
          (Graph.init none) with uri := q.graph }.add (q_as_t q)),
      (d.vivifyH q.graph).2.graphs⟩ := rfl
  rw [heq]
  exact invH_set_at hv _ _ hvr (Or.inr (Or.inl hkey))

theorem invH_removeState {d : DatasetH} (hi : InvH d) (q : Quad) :
    InvH (d.removeStateH q) := by
  have hv := invH_vivify hi q.graph
  have hvr := vivifyH_ref_lt hi q.graph
  have heq : d.removeStateH q =
      ⟨(d.vivifyH q.graph).2.heap.set (d.vivifyH q.graph).1
        (((d.vivifyH q.graph).2.heap.getD (d.vivifyH q.graph).1
          (Graph.init none)).removeState (q_as_t q)),
      (d.vivifyH q.graph).2.graphs⟩ := rfl
  rw [heq]
  exact invH_set_at hv _ _ hvr (Or.inr (Or.inr (removeState_uri _ _)))

theorem invH_addGraph {d : DatasetH} (hi : InvH d) (r : Nat)
    (n : Option Term) (hr : r < d.heap.length) :
    InvH (d.addGraphStateH r n) := by
  by_cases ht : (pyOrName n (d.heap.getD r (Graph.init none)).uri).truthy
      = true
  · have heq : d.addGraphStateH r n =
        ⟨d.heap.set r { d.heap.getD r (Graph.init none) with
            uri := pyOrName n (d.heap.getD r (Graph.init none)).uri },
          dSet d.graphs (pyOrName n (d.heap.getD r (Graph.init none)).uri)
            r⟩ := by
      simp only [DatasetH.addGraphStateH]
      rw [if_pos ht]
    rw [heq]
    have hkeymem : pyOrName n (d.heap.getD r (Graph.init none)).uri ∈
        (dSet d.graphs (pyOrName n (d.heap.getD r (Graph.init none)).uri)
          r).map Prod.fst :=
      keys_dSet_self _ _ _
    constructor
    · intro pr hpr
      rcases mem_dSet hpr with h1 | h1
      · have h2 := hi.refsValid pr h1
        simpa [List.length_set] using h2
      · rw [h1]
        simpa [List.length_set] using hr
    · intro pr hpr
      by_cases he : pr.2 = r
      · show ((d.heap.set r _).getD pr.2 (Graph.init none)).uri = _ ∨ _
        rw [he, getD_set_self hr]
        exact Or.inr hkeymem
      · show ((d.heap.set r _).getD pr.2 (Graph.init none)).uri = _ ∨ _
        rw [getD_set_ne _ (fun hh => he hh.symm)]
        rcases mem_dSet hpr with h1 | h1
        · rcases hi.naming pr h1 with h2 | h2
          · exact Or.inl h2
          · exact Or.inr (keys_dSet_mono _ _ h2)
        · exfalso
          apply he
          rw [h1]
  · have heq : d.addGraphStateH r n = d := by
      simp only [DatasetH.addGraphStateH]
      rw [if_neg ht]
    rw [heq]
    exact hi

theorem invH_graphStep {d : DatasetH} (hi : InvH d) (r : Nat) (g' : Graph)
    (hr : r < d.heap.length)
    (huri : g'.uri = (d.heap.getD r (Graph.init none)).uri) :
    InvH ⟨d.heap.set r g', d.graphs⟩ :=
  invH_set_at hi r g' hr (Or.inr (Or.inr huri))

theorem invH_reachable {d : DatasetH} (hd : DReachableH d) : InvH d := by
  induction hd with
  | init => exact invH_init
  | alloc g0 _ ih => exact invH_alloc ih g0
  | addQ q _ ih => exact invH_add ih q
  | removeStep q _ ih => exact invH_removeState ih q
  | addGraphStep r n hr _ ih => exact invH_addGraph ih r n hr
  | matchViv k _ ih => exact invH_vivify ih k
  | graphStep r g' hr huri _ ih => exact invH_graphStep ih r g' hr huri

theorem dreachableH_addAll {d : DatasetH} (hd : DReachableH d)
    (qs : List Quad) : DReachableH (d.addAllH qs) := by
  induction qs generalizing d with
  | nil => exact hd
  | cons q qs ih => exact ih (DReachableH.addQ q hd)

theorem idx3Set_id {m : Idx3} {a b c : Term} {t : Triple}
    (hf : idx3Find m a b c = some t) : idx3Set m a b c t = m := by
  have hunf2 : dGetD m a = (dGet? m a).getD [] := rfl
  cases ha : dGet? m a with
  | none =>
    exfalso
    have hnone : idx3Find m a b c = none := by
      show dGet? (dGetD (dGetD m a) b) c = none
      rw [hunf2, ha]
      rfl
    rw [hnone] at hf
    exact Option.noConfusion hf
  | some m2 =>
    have hm2 : dGetD m a = m2 := by rw [hunf2, ha, Option.getD_some]
    cases hb : dGet? m2 b with
    | none =>
      exfalso
      have hdb : dGetD m2 b = [] := by
        show (dGet? m2 b).getD [] = []
        rw [hb]
        rfl
      have hnone : idx3Find m a b c = none := by
        show dGet? (dGetD (dGetD m a) b) c = none
        rw [hm2, hdb]
        rfl
      rw [hnone] at hf
      exact Option.noConfusion hf
    | some m1 =>
      have hm1 : dGetD m2 b = m1 := by
        show (dGet? m2 b).getD [] = m1
        rw [hb, Option.getD_some]
      have hc : dGet? m1 c = some t := by
        have h3 : dGet? (dGetD (dGetD m a) b) c = some t := hf
        rw [hm2, hm1] at h3
        exact h3
      show dSet m a (dSet (dGetD m a) b (dSet (dGetD (dGetD m a) b) c t)) = m
      rw [hm2, hm1, dSet_eq_of_get hc, dSet_eq_of_get hb, dSet_eq_of_get ha]

/-! Claim theorems. -/

/-- C1 (counterexample): `Graph.match` does not equal brute-force filtering
by equality on the bound fields when "bound" means "argument supplied":
on the reachable one-triple graph, binding the falsy subject
`NamedNode("")` makes `match` yield the triple (the truthiness dispatch
treats it as unbound), while the brute-force filter by subject equality
yields nothing. -/
theorem match_supplied_cex :
    ((Graph.init none).add tA).matchT (some (Term.named "")) none none
      = [tA] ∧
    bruteMatchSupplied ((Graph.init none).add tA)
      (some (Term.named "")) none none = [] ∧
    ((Graph.init none).add tA).matchT (some (Term.named "")) none none ≠
      bruteMatchSupplied ((Graph.init none).add tA)
        (some (Term.named "")) none none := by
  refine ⟨by decide, by decide, by decide⟩

/-- C1 (amended): for every reachable graph state and every pattern,
`Graph.match` yields exactly the triples obtained by brute-force filtering
all of the graph's triples by equality on the bound fields, where an
argument counts as bound exactly when it is truthy (a supplied falsy
argument is treated as unbound); the eight truthy-bound/unbound
combinations are dispatched per the spec's table (membership test, SPO,
OSP, SPO, POS, POS, OSP, primary-set enumeration). -/
theorem match_eq_bruteforce {g : Graph} (hg : GReachable g)
    (so po oo : Option Term) (t : Triple) :
    t ∈ g.matchT so po oo ↔ t ∈ bruteMatchTruthy g so po oo :=
  match_eq_filter_aux (inv_reachable hg) so po oo t

/-- C1 (witness): the amended theorem applied to a concrete reachable
graph and pattern. -/
theorem match_eq_bruteforce_witness :
    tA ∈ ((Graph.init none).add tA).matchT (some sA) none none ↔
      tA ∈ bruteMatchTruthy ((Graph.init none).add tA) (some sA) none none :=
  match_eq_bruteforce (GReachable.add tA (GReachable.init none))
    (some sA) none none tA

/-- C2: after every public `Graph` operation completes (reachable states
are closed under `add`, `remove`, consuming `match`, and the `addAll`,
`merge` and `removeMatches` state transitions those compose), a triple is
in the primary set iff it is reachable through all three index trees at
the path given by its own subject, predicate and object, with the triple
itself stored at the terminal level. -/
theorem member_iff_indexed {g : Graph} (hg : GReachable g) (t : Triple) :
    t ∈ g.triples ↔
      (idx3Find g.spo t.subject t.predicate t.object = some t ∧
        idx3Find g.pos t.predicate t.object t.subject = some t ∧
        idx3Find g.osp t.object t.subject t.predicate = some t) := by
  have hi := inv_reachable hg
  constructor
  · intro ht
    refine ⟨?_, ?_, ?_⟩
    · rw [hi.findS, if_pos ht]
    · rw [hi.findP, if_pos ht]
    · rw [hi.findO, if_pos ht]
  · rintro ⟨h1, _, _⟩
    rw [hi.findS] at h1
    by_cases hm : (⟨t.subject, t.predicate, t.object⟩ : Triple) ∈ g.triples
    · exact hm
    · rw [if_neg hm] at h1
      exact absurd h1 (by simp)

/-- C2 (witness): the invariant read off a concrete reachable graph. -/
theorem member_iff_indexed_witness :
    tA ∈ ((Graph.init none).add tA).triples ↔
      (idx3Find ((Graph.init none).add tA).spo tA.subject tA.predicate
          tA.object = some tA ∧
        idx3Find ((Graph.init none).add tA).pos tA.predicate tA.object
          tA.subject = some tA ∧
        idx3Find ((Graph.init none).add tA).osp tA.object tA.subject
          tA.predicate = some tA) :=
  member_iff_indexed (GReachable.add tA (GReachable.init none)) tA

/-- C3 (evaluation at the failing input): `Graph.removeMatches` does NOT
materialize — its loop `for triple in self.match(...)` drives the live
generator while `self.remove(triple)` deletes from the very structures the
generator is iterating. On the graph holding `tA` and `tB` (same subject
and predicate), the pattern `(sA, pA, None)` matches two triples, both
yielded by iterating the single terminal dict `_spo[sA][pA]`; removing the
first deletes from that dict, and CPython 2 then raises
`RuntimeError("dictionary changed size during iteration")` on the next
step, so the call aborts with the removal partially applied instead of
removing both matches. -/
theorem removeMatches_bug_trigger :
    (((Graph.init none).add tA).add tB).matchT (some sA) (some pA) none
      = [tA, tB] ∧
    dGetD (dGetD (((Graph.init none).add tA).add tB).spo sA) pA
      = [(oA, tA), (oB, tB)] := by
  refine ⟨by decide, by decide⟩

/-- C4 (counterexample): `Dataset.remove` of a quad naming an unknown
graph does not reject before mutating: the `defaultdict` lookup first
creates an empty graph entry under the unknown name (and the error raised
is the same `KeyError`/NotFound from `Graph.remove`, not a distinct
GraphNotFound condition), so the graph mapping is changed by the failing
call. -/
theorem dataset_remove_cex :
    Dataset.init.remove qA =
      .error (.keyError, ⟨[(gnA, Graph.init none)]⟩) ∧
    (⟨[(gnA, Graph.init none)]⟩ : Dataset) ≠ Dataset.init := by
  refine ⟨rfl, by decide⟩

/-- C4 (amended): when the narrowed triple is not a member of the graph
named by the quad (or that graph does not exist), `Dataset.remove` fails
with the `KeyError` (NotFound) propagated from `Graph.remove`; a failing
call on a known graph leaves the dataset unchanged, while a failing call
on an unknown name leaves it changed only by the auto-created empty graph
entry registered under that name. -/
theorem dataset_remove_fail_spec (d : Dataset) (q : Quad)
    (habs : ∀ g, dGet? d.graphs q.graph = some g → q_as_t q ∉ g.triples) :
    (dGet? d.graphs q.graph = none →
      d.remove q = .error (.keyError,
        ⟨d.graphs ++ [(q.graph, Graph.init none)]⟩)) ∧
    (∀ g, dGet? d.graphs q.graph = some g →
      d.remove q = .error (.keyError, d)) := by
  constructor
  · intro hnone
    have hviv1 : (d.vivify q.graph).1 = Graph.init none := by
      simp [Dataset.vivify, hnone]
    have hviv2 : (d.vivify q.graph).2 =
        ⟨d.graphs ++ [(q.graph, Graph.init none)]⟩ := by
      simp [Dataset.vivify, hnone]
    have hrem : (Graph.init none).remove (q_as_t q) =
        .error (.keyError, Graph.init none) := rfl
    have hset : dSet (d.graphs ++ [(q.graph, Graph.init none)]) q.graph
        (Graph.init none) = d.graphs ++ [(q.graph, Graph.init none)] := by
      apply dSet_eq_of_get
      rw [dGet?_append_of_none _ hnone]
      simp [dGet?]
    unfold Dataset.remove
    simp only [hviv1, hviv2, hrem, hset]
  · intro g hsome
    have hviv1 : (d.vivify q.graph).1 = g := by simp [Dataset.vivify, hsome]
    have hviv2 : (d.vivify q.graph).2 = d := by simp [Dataset.vivify, hsome]
    have hrem : g.remove (q_as_t q) = .error (.keyError, g) := by
      unfold Graph.remove
      rw [if_neg (habs g hsome)]
    have hset : dSet d.graphs q.graph g = d.graphs := dSet_eq_of_get hsome
    unfold Dataset.remove
    simp only [hviv1, hviv2, hrem, hset]

/-- C4 (witness): the amended theorem applied to the empty dataset and a
quad naming an unknown graph. -/
theorem dataset_remove_fail_witness :
    Dataset.init.remove ⟨sA, pA, oA, Term.named "http://ex/gw"⟩ =
      .error (.keyError,
        ⟨[(Term.named "http://ex/gw", Graph.init none)]⟩) :=
  (dataset_remove_fail_spec Dataset.init ⟨sA, pA, oA, Term.named "http://ex/gw"⟩
    (fun _ h => Option.noConfusion h)).1 rfl

/-- C5 (counterexample): the claim's second part is false for a member
triple: starting from the reachable graph already containing `tA`,
`add(tA)` is a no-op and `remove(tA)` then deletes it, so `len(g)` ends
one below its pre-add value instead of being restored. -/
theorem remove_member_roundtrip_cex :
    tA ∈ ((Graph.init none).add tA).triples ∧
    ((((Graph.init none).add tA).add tA).removeState tA).triples.length ≠
      ((Graph.init none).add tA).triples.length := by
  refine ⟨by decide, by decide⟩

/-- C5 (amended): for every reachable graph and triple `t` NOT currently a
member, `remove(t)` fails with `KeyError` (NotFound) rather than silently
succeeding and leaves all four structures exactly as they were (the error
carries the unchanged graph); and `add(t)` followed by `remove(t)`
succeeds and restores the primary triple list — hence `len(g)` and
`t not in g` — to its pre-add state. -/
theorem remove_spec {g : Graph} (hg : GReachable g) (t : Triple)
    (h : t ∉ g.triples) :
    g.remove t = .error (.keyError, g) ∧
    ((g.add t).remove t).isOk = true ∧
    ((g.add t).removeState t).triples = g.triples := by
  have hi := inv_add (inv_reachable hg) t
  have hmem : t ∈ (g.add t).triples := by
    show t ∈ g.triples.insert t
    exact List.mem_insert_self t g.triples
  obtain ⟨g', hok, _, htr, _⟩ := remove_ok hi hmem
  refine ⟨?_, ?_, ?_⟩
  · unfold Graph.remove
    rw [if_neg h]
  · rw [hok]
    rfl
  · unfold Graph.removeState
    rw [hok]
    rw [htr]
    show (g.triples.insert t).erase t = g.triples
    rw [List.insert_of_not_mem h, List.erase_cons_head]

/-- C5 (witness): the amended theorem applied to the empty graph and a
fresh triple. -/
theorem remove_spec_witness :
    (Graph.init none).remove tA = .error (.keyError, Graph.init none) ∧
    (((Graph.init none).add tA).remove tA).isOk = true ∧
    (((Graph.init none).add tA).removeState tA).triples =
      (Graph.init none).triples :=
  remove_spec (GReachable.init none) tA (by decide)

/-- C6 (counterexample): the naming invariant fails on a dataset reached
by two public `add_graph` calls sharing one `Graph` object — the trace
`g = Graph("http://ex/a"); ds.add_graph(g);
ds.add_graph(g, named=NamedNode("http://ex/b"))` (the state `dAlias` of
the reference-faithful model). The second call's `graph._uri = name`
mutates the shared object in place, so the entry registered by the first
call still has key `"http://ex/a"` but now contains a graph whose own name
is `"http://ex/b"` — equal neither to its key nor to the `"None"` default
of an auto-created empty graph. (`remove`/`match` on an unknown name also
break key-equals-name via `defaultdict` vivification, with name
`"None"`.) -/
theorem dataset_uri_inv_cex :
    (Term.named "http://ex/a", 0) ∈ dAlias.graphs ∧
    (dAlias.heap.getD 0 (Graph.init none)).uri = Term.named "http://ex/b" ∧
    Term.named "http://ex/b" ≠ Term.named "http://ex/a" ∧
    Term.named "http://ex/b" ≠ Term.named "None" := by
  refine ⟨by decide, by decide, by decide, by decide⟩

/-- C6 (amended): for every dataset reachable by the public operations
(under reference semantics, where mapping entries share mutable `Graph`
objects), every entry of the graph mapping references an object whose own
name is either the default `NamedNode("None")` of an empty graph
auto-created by a `defaultdict` lookup of an unknown name (`remove`,
`match` with a bound graph argument, `removeMatches`), or SOME key of the
mapping — the entry's own key right after registration, but possibly a
different key after `add_graph` re-registers the shared object under a new
name, renaming it in place under every key that references it. -/
theorem dataset_uri_inv {d : DatasetH} (hd : DReachableH d) (k : Term)
    (r : Nat) (hmem : (k, r) ∈ d.graphs) :
    (d.heap.getD r (Graph.init none)).uri = Term.named "None" ∨
      (d.heap.getD r (Graph.init none)).uri ∈ d.graphs.map Prod.fst :=
  (invH_reachable hd).naming (k, r) hmem

/-- C6 (witness): the amended invariant read off the concretely reachable
aliasing state `dAlias` at the stale entry. -/
theorem dataset_uri_inv_witness :
    (dAlias.heap.getD 0 (Graph.init none)).uri = Term.named "None" ∨
      (dAlias.heap.getD 0 (Graph.init none)).uri ∈
        dAlias.graphs.map Prod.fst :=
  dataset_uri_inv
    (DReachableH.addGraphStep 0 (some (Term.named "http://ex/b")) (by decide)
      (DReachableH.addGraphStep 0 none (by decide)
        (DReachableH.alloc (Graph.init (some "http://ex/a"))
          DReachableH.init)))
    (Term.named "http://ex/a") 0 (by decide)

/-- C7 (counterexample): registering a `Graph` constructed without a URI
and with no name argument does NOT fail: `Graph()` has
`_uri = NamedNode(None)`, the truthy string `"None"`, so `add_graph`
silently registers it under `NamedNode("None")` instead of raising the
InvalidArgument (`ValueError`) the claim requires. -/
theorem add_graph_unnamed_cex :
    Dataset.init.add_graph (Graph.init none) none =
      .ok ⟨[(Term.named "None", Graph.init none)]⟩ := rfl

/-- C7 (amended): `add_graph` registers the graph under the name argument
when that is truthy, else under the graph's own `uri` when that is truthy
(setting the graph's `uri` to the chosen name in both cases), and fails
with `ValueError` (InvalidArgument) exactly when both the name argument
and the graph's `uri` are falsy — e.g. `Graph("")`; a `Graph` constructed
without a URI has the truthy name `NamedNode("None")` and is registered
under it. -/
theorem add_graph_spec (d : Dataset) (g : Graph) (n : Option Term) :
    (∀ nm, n = some nm → nm.truthy = true →
      d.add_graph g n = .ok ⟨dSet d.graphs nm { g with uri := nm }⟩) ∧
    (truthyO n = false → g.uri.truthy = true →
      d.add_graph g n = .ok ⟨dSet d.graphs g.uri g⟩) ∧
    (truthyO n = false → g.uri.truthy = false →
      d.add_graph g n = .error (.valueError, d)) := by
  refine ⟨?_, ?_, ?_⟩
  · rintro nm rfl htr
    simp [Dataset.add_graph, htr]
  · intro hn htr
    cases n with
    | none => simp [Dataset.add_graph, htr]
    | some v =>
      have hv : v.truthy = false := by simpa [truthyO] using hn
      simp [Dataset.add_graph, hv, htr]
  · intro hn hng
    cases n with
    | none => simp [Dataset.add_graph, hng]
    | some v =>
      have hv : v.truthy = false := by simpa [truthyO] using hn
      simp [Dataset.add_graph, hv, hng]

/-- C7 (witness): the amended theorem applied to a graph whose `uri` is
the falsy empty `NamedNode`: registration fails with `ValueError`. -/
theorem add_graph_spec_witness :
    Dataset.init.add_graph (Graph.init (some "")) none =
      .error (.valueError, Dataset.init) :=
  (add_graph_spec Dataset.init (Graph.init (some "")) none).2.2 rfl rfl

/-- C8: `Graph.add` is idempotent: re-adding a triple already present in a
reachable graph leaves the graph — primary set (hence `len(g)`) and all
three index trees — literally unchanged: the set insert is a no-op, and
each index write stores the value already present at that path. -/
theorem add_idempotent {g : Graph} (hg : GReachable g) (t : Triple)
    (ht : t ∈ g.triples) : g.add t = g := by
  have hi := inv_reachable hg
  have hfS : idx3Find g.spo t.subject t.predicate t.object = some t := by
    rw [hi.findS, if_pos ht]
  have hfP : idx3Find g.pos t.predicate t.object t.subject = some t := by
    rw [hi.findP, if_pos ht]
  have hfO : idx3Find g.osp t.object t.subject t.predicate = some t := by
    rw [hi.findO, if_pos ht]
  have htr : g.triples.insert t = g.triples := List.insert_of_mem ht
  unfold Graph.add
  rw [htr, idx3Set_id hfS, idx3Set_id hfP, idx3Set_id hfO]

/-- C8 (witness): re-adding the sole triple of a concrete reachable graph
is the identity. -/
theorem add_idempotent_witness :
    ((Graph.init none).add tA).add tA = (Graph.init none).add tA :=
  add_idempotent (GReachable.add tA (GReachable.init none)) tA (by decide)

/-- C9: `merge` returns a new graph whose primary set is exactly the union
of the two inputs' triples, duplicates collapsing by value equality (the
result list is duplicate-free); in this pure embedding the inputs are
untouched by construction, mirroring the source, which only reads them. -/
theorem merge_is_union (g1 g2 : Graph) :
    (∀ t, t ∈ (g1.merge g2).triples ↔ t ∈ g1.triples ∨ t ∈ g2.triples) ∧
    (g1.merge g2).triples.Nodup := by
  have hmem : ∀ (ts : List Triple) (g : Graph) (t : Triple),
      t ∈ (g.addAll ts).triples ↔ t ∈ ts ∨ t ∈ g.triples := by
    intro ts
    induction ts with
    | nil =>
      intro g t
      simp [Graph.addAll]
    | cons a ts ih =>
      intro g t
      have hstep : g.addAll (a :: ts) = (g.add a).addAll ts := rfl
      rw [hstep, ih]
      have h2 : t ∈ (g.add a).triples ↔ t = a ∨ t ∈ g.triples := by
        show t ∈ g.triples.insert a ↔ _
        exact List.mem_insert_iff
      rw [h2, List.mem_cons]
      tauto
  have hnd : ∀ (ts : List Triple) (g : Graph),
      g.triples.Nodup → (g.addAll ts).triples.Nodup := by
    intro ts
    induction ts with
    | nil =>
      intro g hgnd
      exact hgnd
    | cons a ts ih =>
      intro g hgnd
      exact ih _ hgnd.insert
  constructor
  · intro t
    unfold Graph.merge
    rw [hmem, hmem]
    have hinit : t ∈ (Graph.init none).triples ↔ False := by
      simp [Graph.init]
    tauto
  · exact hnd _ _ (hnd _ _ (by simp [Graph.init]))

/-- C9 (witness): the union characterization read off two concrete
one-triple graphs. -/
theorem merge_is_union_witness :
    (tA ∈ (((Graph.init none).add tA).merge
        ((Graph.init none).add tB)).triples ↔
      tA ∈ ((Graph.init none).add tA).triples ∨
        tA ∈ ((Graph.init none).add tB).triples) ∧
    (((Graph.init none).add tA).merge
        ((Graph.init none).add tB)).triples.Nodup :=
  ⟨(merge_is_union ((Graph.init none).add tA) ((Graph.init none).add tB)).1 tA,
    (merge_is_union ((Graph.init none).add tA) ((Graph.init none).add tB)).2⟩

/-- C10: `Graph.match` decides boundness by truthiness, not by whether an
argument was supplied: for every graph state, supplying a falsy term (such
as `NamedNode("")`) as subject, predicate or object behaves exactly as if
that argument were unbound, and with the other two unbound it yields every
triple of the graph regardless of that field's value. -/
theorem falsy_bound_is_unbound (g : Graph) {v : Term}
    (hv : v.truthy = false) (so po oo : Option Term) :
    g.matchT (some v) po oo = g.matchT none po oo ∧
    g.matchT so (some v) oo = g.matchT so none oo ∧
    g.matchT so po (some v) = g.matchT so po none ∧
    g.matchT (some v) none none = g.triples := by
  refine ⟨?_, ?_, ?_, ?_⟩
  · simp [Graph.matchT, truthyO, hv]
  · simp [Graph.matchT, truthyO, hv]
  · simp [Graph.matchT, truthyO, hv]
  · simp [Graph.matchT, truthyO, hv]

/-- C10 (witness): binding the falsy `NamedNode("")` as subject on a
concrete graph yields every triple. -/
theorem falsy_bound_is_unbound_witness :
    ((Graph.init none).add tA).matchT (some (Term.named "")) none none =
      ((Graph.init none).add tA).triples :=
  (falsy_bound_is_unbound ((Graph.init none).add tA) (by decide)
    none none none).2.2.2

end Pymantic
